import Mathlib

/-!
Verification of the octopus active-region walking and pair-HMM fast-path
components against their specification.

Part I embeds the fast-path mismatch scorer
`compute_log_conditional_probability` (pair_hmm.cpp) together with the
entry guard of its full-alignment fallback `align`.

Part II embeds the greedy region-extension algorithm `GenomeWalker::walk`
(genome_walker.cpp) over a spec-modelled mappable-algorithms layer.

Machine doubles returned by the scorer are represented symbolically by the
`LogProb` type: each constructor denotes a distinct mathematical value
(the sentinel `std::numeric_limits<double>::lowest()`, the exact `0`,
a phred-table entry `-ln(10)/10 * q`, or the full banded-Viterbi result),
so equality of `LogProb` values implies equality of the doubles they
denote, and `phredLn a ≠ phredLn b` for `a ≠ b` denotes genuinely
different doubles.
-/

namespace Octopus

/-- Alignment model parameters, from struct `Model` used by `pair_hmm.cpp`:
gap-extend penalty, nucleotide prior (insertion bias) and the flank-clear
flag. -/
structure Model where
  gapextend : ℕ
  nucprior : ℕ
  flank_clear : Bool
deriving DecidableEq, Repr

/-- Symbolic value domain for the `double` returned by the scorer.
`lowest` is `std::numeric_limits<double>::lowest()`; `zero` is the literal
`0` returned on a full match; `phredLn q` is the lookup-table entry
`-ln(10)/10 * q`; `full` abstractly tags the value computed by the full
banded-Viterbi routine (`fastAlignmentRoutine` / `calculateFlankScore`,
whose sources are not part of this repository) applied to the given
arguments. No claim depends on the numeric value of `full`; it records all
of its inputs, including the model, so that any model dependence of the
full path is preserved. -/
inductive LogProb where
  | lowest : LogProb
  | zero : LogProb
  | phredLn (q : ℕ) : LogProb
  | full (truth target : List Char) (tq gop : List ℕ) (offset : ℕ) (m : Model) : LogProb
deriving DecidableEq, Repr

/-- `std::mismatch(first1, last1, first2)`: index of the first position at
which the two sequences differ, scanning the length of the first sequence
(the second is at least as long at every call site). -/
def firstMismatch : List Char → List Char → Option ℕ
  | x :: xs, y :: ys => if x = y then (firstMismatch xs ys).map (· + 1) else some 0
  | _, _ => none

/-- `count_mismatches` from pair_hmm.cpp: number of positions at which the
two sequences differ, scanning the length of the shorter. -/
def countMismatches : List Char → List Char → ℕ
  | x :: xs, y :: ys => (if x = y then 0 else 1) + countMismatches xs ys
  | _, _ => 0

/-- The `align` helper of pair_hmm.cpp, up to its feasibility guard: the
band needs `target.size() + 15` truth bases from `offset_hint` on, else
the sentinel is returned.  Beyond the guard the value is computed by
`fastAlignmentRoutine` (not part of this repository) and is represented
abstractly by `LogProb.full` applied to all of the call's inputs. -/
def align (truth target : List Char) (tq gop : List ℕ) (offset : ℕ) (m : Model) : LogProb :=
  if truth.length < offset + (target.length + 15) then LogProb.lowest
  else LogProb.full truth target tq gop offset m

/-- `compute_log_conditional_probability` from pair_hmm.cpp.  Mirrors the
source line by line: infeasibility guard, `std::mismatch` scan from the
offset hint, the single-mismatch analytic resolution (note the source
indexes `truth_gap_open_penalties` by the window-relative mismatch index),
and the fall-through to `align`. -/
def compute_log_conditional_probability (truth target : List Char) (tq gop : List ℕ)
    (offset : ℕ) (m : Model) : LogProb :=
  if truth.length < offset + target.length then LogProb.lowest
  else
    match firstMismatch target (truth.drop offset) with
    | none => LogProb.zero
    | some i =>
      let nm := countMismatches (target.drop (i + 1)) (truth.drop (offset + i + 1)) + 1
      if nm = 1 then
        if tq.getD i 0 ≤ gop.getD i 0 then LogProb.phredLn (tq.getD i 0)
        else if target.drop (i + 1) = (truth.drop (offset + i)).take (target.length - (i + 1)) then
          LogProb.phredLn (gop.getD i 0)
        else LogProb.phredLn (tq.getD i 0)
      else align truth target tq gop offset m

/-- Modelled from the spec: the value the specification assigns to the
single-mismatch case ("if the target base's error probability is ≤ the
truth's gap-open penalty at that position ..."), with the gap-open penalty
read at the mismatch's position in truth coordinates, `offset + i` — the
same convention the source's own full path uses when it passes
`truth_gap_open_penalities.data() + offset_hint` to the aligner.  Used to
compare the spec's reading against the source's window-relative indexing. -/
def claimedSingleMismatchValue (truth target : List Char) (tq gop : List ℕ)
    (offset i : ℕ) : LogProb :=
  if tq.getD i 0 ≤ gop.getD (offset + i) 0 then LogProb.phredLn (tq.getD i 0)
  else if target.drop (i + 1) = (truth.drop (offset + i)).take (target.length - (i + 1)) then
    LogProb.phredLn (gop.getD (offset + i) 0)
  else LogProb.phredLn (tq.getD i 0)

/-!
Part II: the genome walker.

`GenomeWalker::walk` itself is in `src/genome_walker.cpp`; the mappable
helper algorithms it calls (`overlap_range`, `get_tail`, `inner_distance`,
`find_first_shared`, ...) live in headers that are not part of this
repository and are modelled from the specification (§3, §4.1, §4.3), as
noted on each definition.  Regions are modelled on a single contig (the
spec excludes cross-contig comparisons); the read map is modelled as one
flat list of read regions, sorted by start position as the spec requires.
The walker is embedded as a partial function into `Option GenomicRegion`:
`none` marks an execution that is undefined behaviour in the C++ source
(an iterator moved before the first candidate or past the last, or a
dereference of a nonexistent leftmost/rightmost overlapping read).
-/

/-- The spec's `GenomicRegion` (§3): a half-open interval `[begin_, end_)`
on a named contig.  `begin` and `end` are Lean keywords, hence the
trailing underscores. -/
structure GenomicRegion where
  contig : String
  begin_ : ℕ
  end_ : ℕ
deriving DecidableEq, Repr

instance : Inhabited GenomicRegion := ⟨⟨"", 0, 0⟩⟩

/-- Modelled from the spec: overlap of half-open intervals (§3). -/
def overlapsB (a b : GenomicRegion) : Bool :=
  decide (a.begin_ < b.end_) && decide (b.begin_ < a.end_)

/-- Modelled from the spec: interval containment (§3). -/
def containsB (a b : GenomicRegion) : Bool :=
  decide (a.begin_ ≤ b.begin_) && decide (b.end_ ≤ a.end_)

/-- Modelled from the spec: `get_tail(region, n)` is the region of size `n`
starting at the end of `region` ("a zero-length region immediately
following it" when `n = 0`, §4.1 step 1 / §7). -/
def get_tail (r : GenomicRegion) (n : ℕ) : GenomicRegion :=
  ⟨r.contig, r.end_, r.end_ + n⟩

/-- Modelled from the spec: `get_intervening(a, b)` is the minimal region
spanning the gap between the end of `a` and the start of `b` (§4.1
step 2). -/
def get_intervening (a b : GenomicRegion) : GenomicRegion :=
  ⟨a.contig, a.end_, b.begin_⟩

/-- Modelled from the spec: `get_encompassing(a, b)` is the smallest region
covering both `a` and `b`. -/
def get_encompassing (a b : GenomicRegion) : GenomicRegion :=
  ⟨a.contig, min a.begin_ b.begin_, max a.end_ b.end_⟩

/-- Modelled from the spec: `get_closed(a, b)` spans from the start of `a`
to the end of `b` (used for the expanded region boundaries, §4.1 step 7). -/
def get_closed (a b : GenomicRegion) : GenomicRegion :=
  ⟨a.contig, a.begin_, b.end_⟩

/-- Modelled from the spec: `inner_distance(a, b)` is the signed gap from
the end of `a` to the start of `b`. -/
def innerDistance (a b : GenomicRegion) : ℤ :=
  (b.begin_ : ℤ) - (a.end_ : ℤ)

/-- Modelled from the spec: `shift(r, d)` translates a region by a signed
distance; positions are unsigned and clamp at zero. -/
def shiftRegion (r : GenomicRegion) (d : ℤ) : GenomicRegion :=
  ⟨r.contig, ((r.begin_ : ℤ) + d).toNat, ((r.end_ : ℤ) + d).toNat⟩

/-- Modelled from the spec: the lower end of `overlap_range(region)` over a
sorted candidate list — the index of the first candidate whose end lies
beyond the region's start (§4.3). -/
def overlapLo (prev : GenomicRegion) : List GenomicRegion → ℕ
  | [] => 0
  | c :: t => if prev.begin_ < c.end_ then 0 else overlapLo prev t + 1

/-- Modelled from the spec: the upper end of `overlap_range(region)` over a
sorted candidate list — the index of the first candidate starting at or
after the region's end, i.e. the first candidate beyond the region
(§4.3).  `cend` of the overlap range in the source. -/
def overlapHi (prev : GenomicRegion) : List GenomicRegion → ℕ
  | [] => 0
  | c :: t => if prev.end_ ≤ c.begin_ then 0 else overlapHi prev t + 1

/-- Modelled from the spec: two candidates share a supporting read when
some read overlaps both (§4.3 `find_first_shared`). -/
def sharesReadB (reads : List GenomicRegion) (a b : GenomicRegion) : Bool :=
  reads.any fun r => overlapsB r a && overlapsB r b

/-- Fuel-indexed scan for `findFirstShared`: the fuel is the length of the
remaining index range, so the scan is structural. -/
def findFirstSharedAux (reads cands : List GenomicRegion) (target : GenomicRegion) :
    ℕ → ℕ → ℕ
  | 0, lo => lo
  | fuel + 1, lo =>
    if sharesReadB reads (cands.getD lo default) target then lo
    else findFirstSharedAux reads cands target fuel (lo + 1)

/-- Modelled from the spec: `find_first_shared(reads, first, last, target)`
— the earliest index in `[lo, hi)` whose candidate shares a supporting
read with `target`, or `hi` if none does (§4.3). -/
def findFirstShared (reads cands : List GenomicRegion) (target : GenomicRegion)
    (lo hi : ℕ) : ℕ :=
  findFirstSharedAux reads cands target (hi - lo) lo

/-- Modelled from the spec: `max_count_if_shared_with_first(reads, first,
last)` — how many subsequent candidates in `[first+1, lastIdx)` share a
supporting read with the candidate at `first` (§4.1 step 4: "how many
subsequent candidates fall within one read length of the first included
candidate"). -/
def maxCountSharedFirst (reads cands : List GenomicRegion) (first lastIdx : ℕ) : ℕ :=
  ((cands.drop (first + 1)).take (lastIdx - (first + 1))).countP
    fun c => sharesReadB reads c (cands.getD first default)

/-- Modelled from the spec: `count_overlapped` over the whole candidate
list (§4.3). -/
def countOverlapped (cands : List GenomicRegion) (r : GenomicRegion) : ℕ :=
  cands.countP fun c => overlapsB c r

/-- Modelled from the spec: `count_overlapped(first, last, region)` over
the index range `[a, b)` of the candidate list (§4.3). -/
def countOverlappedRange (cands : List GenomicRegion) (a b : ℕ) (r : GenomicRegion) : ℕ :=
  ((cands.drop a).take (b - a)).countP fun c => overlapsB c r

/-- Modelled from the spec: `leftmost_overlapped(reads, m)` — the
overlapping read with the smallest start (reads are sorted by start, §3),
or `none` (undefined behaviour in the source) when no read overlaps. -/
def leftmostOverlapped (reads : List GenomicRegion) (m : GenomicRegion) :
    Option GenomicRegion :=
  (reads.filter fun r => overlapsB r m).head?

/-- Modelled from the spec: `rightmost_overlapped(reads, m)` — the
overlapping read with the largest start (reads are sorted by start, §3),
or `none` (undefined behaviour in the source) when no read overlaps. -/
def rightmostOverlapped (reads : List GenomicRegion) (m : GenomicRegion) :
    Option GenomicRegion :=
  (reads.filter fun r => overlapsB r m).getLast?

/-- `GenomeWalker::IndicatorLimit`. -/
inductive IndicatorLimit where
  | SharedWithPreviousRegion : IndicatorLimit
  | NoLimit : IndicatorLimit
deriving DecidableEq, Repr

/-- `GenomeWalker::ExtensionLimit`. -/
inductive ExtensionLimit where
  | WithinReadLengthOfFirstIncluded : ExtensionLimit
  | NoLimit : ExtensionLimit
deriving DecidableEq, Repr

/-- `GenomeWalker::ExpansionLimit`. -/
inductive ExpansionLimit where
  | UpToExcluded : ExpansionLimit
  | WithinReadLength : ExpansionLimit
  | UpToExcludedWithinReadLength : ExpansionLimit
  | NoExpansion : ExpansionLimit
deriving DecidableEq, Repr

/-- The walker's configuration fields, as stored by the `GenomeWalker`
constructor. -/
structure GenomeWalker where
  max_indicators_ : ℕ
  max_included_ : ℕ
  indicator_limit_ : IndicatorLimit
  extension_limit_ : ExtensionLimit
  expansion_limit_ : ExpansionLimit
deriving DecidableEq, Repr

/-- The `GenomeWalker` constructor (genome_walker.cpp lines 24-33): the
stored indicator bound becomes `max_included - 1` when
`0 < max_included ≤ max_indicators`; everything else is stored
unchanged. -/
def mkGenomeWalker (max_indicators max_included : ℕ) (il : IndicatorLimit)
    (el : ExtensionLimit) (xl : ExpansionLimit) : GenomeWalker :=
  ⟨if 0 < max_included ∧ max_included ≤ max_indicators then max_included - 1
    else max_indicators,
   max_included, il, el, xl⟩

/-- `is_optimal_to_extend` (genome_walker.cpp lines 47-59).  The
`first_included` parameter is unused, as in the source.  Candidate
dereferences are in range at every call from the walker's loop. -/
def is_optimal_to_extend (reads cands : List GenomicRegion)
    (first_included proposed first_excluded lastIdx : ℕ)
    (max_density_increase : ℕ) : Bool :=
  if proposed = lastIdx then false
  else if first_excluded = lastIdx then true
  else
    let increases_density :=
      decide (max_density_increase ≤ maxCountSharedFirst reads cands proposed lastIdx)
    !increases_density ||
      decide (innerDistance (cands.getD (proposed - 1) default) (cands.getD proposed default) ≤
        innerDistance (cands.getD proposed default) (cands.getD first_excluded default))

/-- The walker's greedy extension loop (genome_walker.cpp lines 141-145):
`while (--num_included > 0 && is_optimal_to_extend(...)) ++included_itr;`.
The counter is an `unsigned`; it is at least 1 on entry at the only call
site, so the decrement never wraps, and the density budget
`num_included + num_excluded_candidates` is an unsigned sum reduced
modulo 2^32. -/
def extendLoop (reads cands : List GenomicRegion)
    (first_included fe lastIdx numExcl : ℕ) : ℕ → ℕ → ℕ
  | included, 0 => included
  | included, 1 => included
  | included, ni + 2 =>
    if is_optimal_to_extend reads cands first_included (included + 1) fe lastIdx
        ((ni + 1 + numExcl) % 4294967296) then
      extendLoop reads cands first_included fe lastIdx numExcl (included + 1) (ni + 1)
    else included

/-- The extension-limit branch (genome_walker.cpp lines 131-137): caps the
number of included candidates and, in the `WithinReadLengthOfFirstIncluded`
case, computes `num_excluded_candidates = max_candidates_within_read_length
- num_included` as an unsigned subtraction modulo 2^32. -/
def extensionCaps (w : GenomeWalker) (reads cands : List GenomicRegion)
    (inc0 niInit numRemaining : ℕ) : ℕ × ℕ :=
  match w.extension_limit_ with
  | ExtensionLimit.WithinReadLengthOfFirstIncluded =>
    let mcwrl := maxCountSharedFirst reads cands inc0 cands.length
    let ni := min (min niInit numRemaining) (mcwrl + 1)
    (ni, (mcwrl + 4294967296 - ni) % 4294967296)
  | ExtensionLimit.NoLimit => (min niInit numRemaining, 0)

/-- The indicator count (genome_walker.cpp lines 115-121): the configured
bound, further limited in `SharedWithPreviousRegion` mode by the distance
from the first previous candidate sharing a read with the first included
candidate. -/
def numIndicators (w : GenomeWalker) (reads cands : List GenomicRegion)
    (lo inc0 : ℕ) : ℕ :=
  match w.indicator_limit_ with
  | IndicatorLimit.SharedWithPreviousRegion =>
    min (inc0 - findFirstShared reads cands (cands.getD inc0 default) lo inc0)
      w.max_indicators_
  | IndicatorLimit.NoLimit => w.max_indicators_

/-- The position of `included_itr` after the greedy extension loop
(genome_walker.cpp lines 123-145): starting from the first candidate
beyond the previous region, with the caps of `extensionCaps` and the
budget of `extendLoop`. -/
def walkLoopResult (w : GenomeWalker) (reads cands : List GenomicRegion)
    (prev : GenomicRegion) : ℕ :=
  let inc0 := overlapHi prev cands
  let numInd := numIndicators w reads cands (overlapLo prev cands) inc0
  let p := extensionCaps w reads cands inc0 (w.max_included_ - numInd)
    (cands.length - inc0)
  extendLoop reads cands (inc0 - numInd) (inc0 + p.1) cands.length p.2 inc0 p.1

/-- The index-computing stage of `GenomeWalker::walk` (genome_walker.cpp
lines 115-151): indicator count, extension caps, greedy extension loop,
the same-position absorption `advance(included_itr, count_overlapped(...)
- 1)` (a signed advance: a negative final index is undefined behaviour,
modelled as `none`, as is stepping the indicator iterator before the first
candidate), and the clamp `if (included_itr == cend(candidates))
--included_itr;`.  Returns `(first_included, included)` as indices. -/
def walkIndices (w : GenomeWalker) (reads cands : List GenomicRegion)
    (prev : GenomicRegion) : Option (ℕ × ℕ) :=
  let n := cands.length
  let inc0 := overlapHi prev cands
  let numInd := numIndicators w reads cands (overlapLo prev cands) inc0
  if inc0 < numInd then none
  else
    (cands.get? (walkLoopResult w reads cands prev)).bind fun rm =>
      let adv : ℤ :=
        (walkLoopResult w reads cands prev : ℤ) + (countOverlapped cands rm : ℤ) - 1
      if adv < 0 then none
      else
        let inc2 := adv.toNat
        some (inc0 - numInd, if inc2 = n then inc2 - 1 else inc2)

/-- Fuel-indexed loop body for `narrowPrev` (fuel = remaining range
length, so the loop is structural). -/
def narrowPrevAux (cands : List GenomicRegion) (lhs : GenomicRegion) : ℕ → ℕ → ℕ
  | 0, fp => fp
  | fuel + 1, fp =>
    if lhs.begin_ < (cands.getD fp default).begin_ then
      narrowPrevAux cands lhs fuel (fp + 1)
    else fp

/-- The first narrowing loop of the `UpToExcludedWithinReadLength` branch
(genome_walker.cpp lines 169-171): advance the first-previous pointer
while the leftmost read begins before it, stopping at `fi`. -/
def narrowPrev (cands : List GenomicRegion) (lhs : GenomicRegion) (fi fp : ℕ) : ℕ :=
  narrowPrevAux cands lhs (fi - fp) fp

/-- Fuel-indexed loop body for `narrowLast` (fuel = remaining range
length, so the loop is structural). -/
def narrowLastAux (cands : List GenomicRegion) (rhs : GenomicRegion) : ℕ → ℕ → ℕ
  | 0, lv => lv
  | fuel + 1, lv =>
    if rhs.end_ < (cands.getD (lv - 1) default).end_ then
      narrowLastAux cands rhs fuel (lv - 1)
    else lv

/-- The second narrowing loop of the `UpToExcludedWithinReadLength` branch
(genome_walker.cpp lines 175-177): retreat the last-candidate pointer
while the rightmost read ends before the candidate in front of it,
stopping at `fe`. -/
def narrowLast (cands : List GenomicRegion) (rhs : GenomicRegion) (fe lv : ℕ) : ℕ :=
  narrowLastAux cands rhs (lv - fe) lv

/-- `expand_around_included` (genome_walker.cpp lines 61-88): boundary
expansion between the previous candidates and the first excluded
candidate, with the insertion shift-by-one special case on the left and
the contained-excluded shift on the right. -/
def expandAroundIncluded (reads cands : List GenomicRegion) (fp fi fe lastIdx : ℕ) :
    Option GenomicRegion := do
  let li := fe - 1
  let cfi ← cands.get? fi
  let cli ← cands.get? li
  let L0 ← leftmostOverlapped reads cfi
  let R0 ← rightmostOverlapped reads cli
  let leftRes ←
    if 0 < countOverlappedRange cands fp fi L0 then do
      let cprev ← cands.get? (fi - 1)
      let L1 := shiftRegion cfi (innerDistance cfi cprev)
      pure (if overlapsB cprev L1 then shiftRegion L1 1 else L1)
    else pure L0
  let rightRes ←
    if fe < lastIdx then do
      let cfe ← cands.get? fe
      pure (if containsB R0 cfe then shiftRegion cli (innerDistance cli cfe) else R0)
    else pure R0
  pure (get_closed leftRes rightRes)

/-- The expansion switch of `GenomeWalker::walk` (genome_walker.cpp lines
153-184). -/
def walkExpand (w : GenomeWalker) (reads cands : List GenomicRegion)
    (lo fi inc : ℕ) : Option GenomicRegion :=
  let n := cands.length
  let fe := inc + 1
  match w.expansion_limit_ with
  | ExpansionLimit.UpToExcluded => expandAroundIncluded reads cands lo fi fe n
  | ExpansionLimit.WithinReadLength => do
    let cfi ← cands.get? fi
    let cinc ← cands.get? inc
    let lhs ← leftmostOverlapped reads cfi
    let rhs ← rightmostOverlapped reads cinc
    pure (get_encompassing lhs rhs)
  | ExpansionLimit.UpToExcludedWithinReadLength => do
    let cfi ← cands.get? fi
    let cinc ← cands.get? inc
    let lhs ← leftmostOverlapped reads cfi
    let rhs ← rightmostOverlapped reads cinc
    expandAroundIncluded reads cands (narrowPrev cands lhs fi lo) fi fe
      (narrowLast cands rhs fe n)
  | ExpansionLimit.NoExpansion => do
    let cfi ← cands.get? fi
    let cinc ← cands.get? inc
    pure (get_encompassing cfi cinc)

/-- `GenomeWalker::walk` (genome_walker.cpp lines 90-185): the exhaustion
early return, the degenerate `max_included == 0` mode (whose
else-branch returning the previous region is unreachable, since the
exhaustion return has already fired when no candidate lies beyond), and
the main pipeline. -/
def GenomeWalker.walk (w : GenomeWalker) (prev : GenomicRegion)
    (reads cands : List GenomicRegion) : Option GenomicRegion :=
  let n := cands.length
  let inc0 := overlapHi prev cands
  if inc0 = n then some (get_tail prev 0)
  else if w.max_included_ = 0 then (cands.get? inc0).map (get_intervening prev)
  else
    (walkIndices w reads cands prev).bind fun pr =>
      walkExpand w reads cands (overlapLo prev cands) pr.1 pr.2

/-- `GenomeWalker::start_walk`: walk from a zero-length region at position
0 of the contig. -/
def GenomeWalker.start_walk (w : GenomeWalker) (contig : String)
    (reads cands : List GenomicRegion) : Option GenomicRegion :=
  w.walk ⟨contig, 0, 0⟩ reads cands

/-- `GenomeWalker::continue_walk`: walk from the previously returned
region. -/
def GenomeWalker.continue_walk (w : GenomeWalker) (prev : GenomicRegion)
    (reads cands : List GenomicRegion) : Option GenomicRegion :=
  w.walk prev reads cands

/-- The iterated walk of the spec's termination property: `walkSeq 1` is
`start_walk` and each further step feeds the previous result back through
`continue_walk`. -/
def walkSeq (w : GenomeWalker) (contig : String) (reads cands : List GenomicRegion) :
    ℕ → Option GenomicRegion
  | 0 => some ⟨contig, 0, 0⟩
  | k + 1 => (walkSeq w contig reads cands k).bind fun r => w.walk r reads cands

/-- The walk iterated from an arbitrary previous region:
`walkIter prev 0 = some prev`, and each step feeds the previous result
through `walk`. -/
def walkIter (w : GenomeWalker) (reads cands : List GenomicRegion) (prev : GenomicRegion) :
    ℕ → Option GenomicRegion
  | 0 => some prev
  | k + 1 => (walkIter w reads cands prev k).bind fun r => w.walk r reads cands

/-- The walk loop reaches the zero-length terminal signal within `bound`
calls. -/
def reachesExhaustion (w : GenomeWalker) (contig : String)
    (reads cands : List GenomicRegion) (bound : ℕ) : Prop :=
  ∃ k r, 1 ≤ k ∧ k ≤ bound ∧ walkSeq w contig reads cands k = some r ∧ r.begin_ = r.end_

/-- No call of the walk loop ever returns a zero-length region: the
negation of the spec's termination property. -/
def neverExhausts (w : GenomeWalker) (contig : String)
    (reads cands : List GenomicRegion) : Prop :=
  ∀ k r, 1 ≤ k → walkSeq w contig reads cands k = some r → r.begin_ ≠ r.end_

/-!
Concrete inputs on which the iterated walk fails to reach the zero-length
terminal region.  All four candidate lists are sorted and duplicate-free.
-/

/-- One indicator allowed, two included, shared-indicator mode, no
extension or expansion limits beyond `NoExpansion`. -/
def insertionCfg : GenomeWalker :=
  ⟨1, 2, IndicatorLimit.SharedWithPreviousRegion, ExtensionLimit.NoLimit,
    ExpansionLimit.NoExpansion⟩

/-- A normal candidate followed by a zero-length insertion candidate at
position 10. -/
def insertionCands : List GenomicRegion := [⟨"c", 5, 6⟩, ⟨"c", 10, 10⟩]

/-- A single read spanning both candidates of `insertionCands`. -/
def insertionReads : List GenomicRegion := [⟨"c", 4, 12⟩]

/-- `NoLimit` indicator mode with a positive indicator bound: the walker's
`prev(included_itr, num_indicators)` steps before the first candidate on
the very first call. -/
def noLimitIndicatorCfg : GenomeWalker :=
  ⟨1, 2, IndicatorLimit.NoLimit, ExtensionLimit.NoLimit, ExpansionLimit.NoExpansion⟩

/-- A single nonempty candidate. -/
def singleCandidate : List GenomicRegion := [⟨"c", 5, 6⟩]

/-- A single read covering `singleCandidate`. -/
def singleRead : List GenomicRegion := [⟨"c", 5, 6⟩]

/-- An expansion mode that dereferences the leftmost overlapping read,
run with an empty read map. -/
def noReadsCfg : GenomeWalker :=
  ⟨0, 1, IndicatorLimit.SharedWithPreviousRegion, ExtensionLimit.NoLimit,
    ExpansionLimit.UpToExcluded⟩

/-- Three mutually overlapping (sorted, nonempty) candidates: the
absorption step `advance(included_itr, count_overlapped(...) - 1)`
overshoots past the end of the candidate list. -/
def overlapCfg : GenomeWalker :=
  ⟨0, 3, IndicatorLimit.SharedWithPreviousRegion, ExtensionLimit.NoLimit,
    ExpansionLimit.NoExpansion⟩

/-- The overlapping candidates for `overlapCfg`. -/
def overlapCands : List GenomicRegion := [⟨"c", 0, 10⟩, ⟨"c", 1, 11⟩, ⟨"c", 2, 12⟩]

/-- A read covering all of `overlapCands`. -/
def overlapReads : List GenomicRegion := [⟨"c", 0, 12⟩]

/-! Helper lemmas about the mismatch scan. -/

theorem firstMismatch_of_take_eq :
    ∀ (xs ys : List Char), xs = ys.take xs.length → firstMismatch xs ys = none := by
  intro xs
  induction xs with
  | nil => intro ys _; rfl
  | cons x xs ih =>
    intro ys h
    cases ys with
    | nil => simp at h
    | cons y ys =>
      rw [List.length_cons, List.take_succ_cons, List.cons.injEq] at h
      obtain ⟨h1, h2⟩ := h
      simp [firstMismatch, h1, ih ys h2]

theorem countMismatches_take :
    ∀ (xs ys : List Char), countMismatches xs (ys.take xs.length) = countMismatches xs ys := by
  intro xs
  induction xs with
  | nil => intro ys; cases ys <;> rfl
  | cons x xs ih =>
    intro ys
    cases ys with
    | nil => rfl
    | cons y ys =>
      rw [List.length_cons, List.take_succ_cons]
      show (if x = y then 0 else 1) + countMismatches xs (ys.take xs.length) = _
      rw [ih ys]
      rfl

theorem firstMismatch_eq_none_iff :
    ∀ (xs ys : List Char), firstMismatch xs ys = none ↔ countMismatches xs ys = 0 := by
  intro xs
  induction xs with
  | nil => intro ys; simp [firstMismatch, countMismatches]
  | cons x xs ih =>
    intro ys
    cases ys with
    | nil => simp [firstMismatch, countMismatches]
    | cons y ys =>
      by_cases hxy : x = y
      · simp [firstMismatch, countMismatches, hxy, ih ys]
      · simp [firstMismatch, countMismatches, hxy]

theorem firstMismatch_some_count :
    ∀ (xs ys : List Char) (i : ℕ), firstMismatch xs ys = some i →
      countMismatches xs ys = countMismatches (xs.drop (i + 1)) (ys.drop (i + 1)) + 1 := by
  intro xs
  induction xs with
  | nil => intro ys i h; simp [firstMismatch] at h
  | cons x xs ih =>
    intro ys i h
    cases ys with
    | nil => simp [firstMismatch] at h
    | cons y ys =>
      by_cases hxy : x = y
      · rw [firstMismatch, if_pos hxy, Option.map_eq_some'] at h
        obtain ⟨j, hj, hij⟩ := h
        subst hij
        show (if x = y then 0 else 1) + countMismatches xs ys = _
        rw [if_pos hxy, List.drop_succ_cons, List.drop_succ_cons, ih ys j hj]
        omega
      · rw [firstMismatch, if_neg hxy] at h
        obtain rfl : (0 : ℕ) = i := by
          have := Option.some.inj h; omega
        show (if x = y then 0 else 1) + countMismatches xs ys = _
        rw [if_neg hxy, List.drop_succ_cons, List.drop_succ_cons, List.drop_zero, List.drop_zero]
        omega

theorem drop_drop_offset (l : List Char) (offset i : ℕ) :
    (l.drop offset).drop (i + 1) = l.drop (offset + i + 1) := by
  rw [List.drop_drop]
  congr 1

/-! Claim theorems for the pair-HMM fast path. -/

/-- C1: the claim states that in the single-mismatch case the target
quality is compared against, and the gap cost taken from, the truth
gap-open penalty at the mismatch position — which, the mismatch being at
position `i` of `truth[offset..]`, is entry `offset + i` of the
truth-parallel penalty array, the same convention the source's full path
uses when it offsets the penalty array by `offset_hint` before aligning.
The fast path of `compute_log_conditional_probability` instead reads the
penalty at the window-relative index `i`.  At the failing input below
(`truth = ACCC`, `target = GCC`, qualities `[20,1,1]`, penalties
`[30,10,99,99]`, `offset_hint = 1`, one mismatch at window position 0) the
code compares quality 20 against penalty 30 (entry 0) and returns the
substitution cost `phredLn 20`, while the claimed comparison against
penalty 10 (entry `1 + 0`) together with the shifted exact match demands
the gap cost `phredLn 10`.  The two values denote different doubles. -/
theorem C1_single_mismatch_penalty_index_bug :
    compute_log_conditional_probability ['A','C','C','C'] ['G','C','C'] [20,1,1]
        [30,10,99,99] 1 ⟨1,1,true⟩ = LogProb.phredLn 20 ∧
    claimedSingleMismatchValue ['A','C','C','C'] ['G','C','C'] [20,1,1]
        [30,10,99,99] 1 0 = LogProb.phredLn 10 ∧
    firstMismatch ['G','C','C'] (List.drop 1 ['A','C','C','C']) = some 0 ∧
    countMismatches ['G','C','C'] ((List.drop 1 ['A','C','C','C']).take 3) = 1 ∧
    LogProb.phredLn 20 ≠ LogProb.phredLn 10 := by
  refine ⟨by decide, by decide, by decide, by decide, by decide⟩

/-- C2: whenever `offset_hint + len(target) > len(truth)` (with the
asserted preconditions holding), the scorer returns the sentinel
"impossible" value, `std::numeric_limits<double>::lowest()`. -/
theorem C2_insufficient_truth_returns_lowest (truth target : List Char) (tq gop : List ℕ)
    (offset : ℕ) (m : Model)
    (hq : target.length = tq.length) (hg : truth.length = gop.length)
    (hoff : offset < max truth.length target.length)
    (hshort : truth.length < offset + target.length) :
    compute_log_conditional_probability truth target tq gop offset m = LogProb.lowest := by
  unfold compute_log_conditional_probability
  rw [if_pos hshort]

theorem C2_witness :
    (['A','C'] : List Char).length = ([5,5] : List ℕ).length ∧
    (['A','C'] : List Char).length = ([9,9] : List ℕ).length ∧
    1 < max (['A','C'] : List Char).length (['C','G'] : List Char).length ∧
    (['A','C'] : List Char).length < 1 + (['C','G'] : List Char).length ∧
    compute_log_conditional_probability ['A','C'] ['C','G'] [5,5] [9,9] 1 ⟨1,1,true⟩ =
      LogProb.lowest :=
  ⟨by decide, by decide, by decide, by decide,
    C2_insufficient_truth_returns_lowest ['A','C'] ['C','G'] [5,5] [9,9] 1 ⟨1,1,true⟩
      (by decide) (by decide) (by decide) (by decide)⟩

/-- C3: when the target occurs verbatim at the hinted offset of the truth
(no mismatches) and the truth is long enough, the scorer returns
exactly 0. -/
theorem C3_full_match_returns_zero (truth target : List Char) (tq gop : List ℕ)
    (offset : ℕ) (m : Model)
    (hq : target.length = tq.length) (hg : truth.length = gop.length)
    (hfit : offset + target.length ≤ truth.length)
    (hmatch : target = (truth.drop offset).take target.length) :
    compute_log_conditional_probability truth target tq gop offset m = LogProb.zero := by
  unfold compute_log_conditional_probability
  rw [if_neg (by omega), firstMismatch_of_take_eq target (truth.drop offset) hmatch]

theorem C3_witness :
    (['C','G'] : List Char).length = ([5,5] : List ℕ).length ∧
    (['A','C','G'] : List Char).length = ([9,9,9] : List ℕ).length ∧
    1 + (['C','G'] : List Char).length ≤ (['A','C','G'] : List Char).length ∧
    (['C','G'] : List Char) = ((['A','C','G'] : List Char).drop 1).take 2 ∧
    compute_log_conditional_probability ['A','C','G'] ['C','G'] [5,5] [9,9,9] 1 ⟨2,3,false⟩ =
      LogProb.zero :=
  ⟨by decide, by decide, by decide, by decide,
    C3_full_match_returns_zero ['A','C','G'] ['C','G'] [5,5] [9,9,9] 1 ⟨2,3,false⟩
      (by decide) (by decide) (by decide) (by decide)⟩

/-- C9: once the full dynamic-programming path is taken (at least two
mismatches in the hinted window), the scorer returns the sentinel whenever
`offset_hint + len(target) + 15 > len(truth)`, even though the spec's
stated infeasibility condition `offset_hint + len(target) > len(truth)`
does not hold: the banded alignment requires 15 extra truth bases beyond
the target length. -/
theorem C9_full_path_band_requires_15_extra (truth target : List Char) (tq gop : List ℕ)
    (offset : ℕ) (m : Model)
    (hfit : offset + target.length ≤ truth.length)
    (hband : truth.length < offset + target.length + 15)
    (hmm : 2 ≤ countMismatches target ((truth.drop offset).take target.length)) :
    compute_log_conditional_probability truth target tq gop offset m = LogProb.lowest := by
  rw [countMismatches_take] at hmm
  unfold compute_log_conditional_probability
  rw [if_neg (by omega)]
  cases hfm : firstMismatch target (truth.drop offset) with
  | none =>
    rw [firstMismatch_eq_none_iff] at hfm
    omega
  | some i =>
    have hc := firstMismatch_some_count target (truth.drop offset) i hfm
    rw [drop_drop_offset] at hc
    have hne : ¬(countMismatches (target.drop (i + 1)) (truth.drop (offset + i + 1)) + 1 = 1) := by
      omega
    simp only [hne, if_false]
    unfold align
    rw [if_pos (by omega)]

theorem C9_witness :
    0 + (['C','C'] : List Char).length ≤ (['A','A','A','A'] : List Char).length ∧
    (['A','A','A','A'] : List Char).length < 0 + (['C','C'] : List Char).length + 15 ∧
    2 ≤ countMismatches ['C','C'] ((List.drop 0 ['A','A','A','A']).take 2) ∧
    compute_log_conditional_probability ['A','A','A','A'] ['C','C'] [5,5] [9,9,9,9] 0
      ⟨1,1,true⟩ = LogProb.lowest :=
  ⟨by decide, by decide, by decide,
    C9_full_path_band_requires_15_extra ['A','A','A','A'] ['C','C'] [5,5] [9,9,9,9] 0
      ⟨1,1,true⟩ (by decide) (by decide) (by decide)⟩

/-- C10: on every input decided by the fast path — no mismatch in the
hinted window, exactly one mismatch, or the infeasibility sentinel — the
returned value does not depend on the model argument: two calls differing
only in the model fields return the same value. -/
theorem C10_fast_path_model_independent (truth target : List Char) (tq gop : List ℕ)
    (offset : ℕ) (m₁ m₂ : Model)
    (hfast : countMismatches target ((truth.drop offset).take target.length) = 0 ∨
      countMismatches target ((truth.drop offset).take target.length) = 1 ∨
      truth.length < offset + target.length) :
    compute_log_conditional_probability truth target tq gop offset m₁ =
      compute_log_conditional_probability truth target tq gop offset m₂ := by
  by_cases hgrd : truth.length < offset + target.length
  · unfold compute_log_conditional_probability
    rw [if_pos hgrd, if_pos hgrd]
  · rw [countMismatches_take] at hfast
    rcases hfast with h0 | h1 | hs
    · have hfm : firstMismatch target (truth.drop offset) = none :=
        (firstMismatch_eq_none_iff target (truth.drop offset)).mpr h0
      unfold compute_log_conditional_probability
      rw [if_neg hgrd, if_neg hgrd, hfm]
    · cases hfm : firstMismatch target (truth.drop offset) with
      | none =>
        rw [firstMismatch_eq_none_iff] at hfm
        omega
      | some i =>
        have hc := firstMismatch_some_count target (truth.drop offset) i hfm
        rw [drop_drop_offset] at hc
        have hone : countMismatches (target.drop (i + 1)) (truth.drop (offset + i + 1)) + 1 = 1 := by
          omega
        unfold compute_log_conditional_probability
        rw [if_neg hgrd, if_neg hgrd, hfm]
        simp only [hone, if_true]
    · exact absurd hs hgrd

theorem C10_witness :
    countMismatches ['G','C','C'] ((List.drop 1 ['A','C','C','C']).take 3) = 1 ∧
    compute_log_conditional_probability ['A','C','C','C'] ['G','C','C'] [20,1,1]
        [30,10,99,99] 1 ⟨1,2,true⟩ =
      compute_log_conditional_probability ['A','C','C','C'] ['G','C','C'] [20,1,1]
        [30,10,99,99] 1 ⟨7,8,false⟩ :=
  ⟨by decide,
    C10_fast_path_model_independent ['A','C','C','C'] ['G','C','C'] [20,1,1]
      [30,10,99,99] 1 ⟨1,2,true⟩ ⟨7,8,false⟩ (Or.inr (Or.inl (by decide)))⟩

/-! Helper lemmas about the end of the overlap range. -/

theorem get?_eq_some_getD {α : Type} [Inhabited α] :
    ∀ (l : List α) (k : ℕ), k < l.length → l.get? k = some (l.getD k default) := by
  intro l
  induction l with
  | nil => intro k h; simp at h
  | cons a t ih =>
    intro k h
    cases k with
    | zero => rfl
    | succ k =>
      rw [List.length_cons] at h
      simpa [List.get?, List.getD] using ih k (by omega)

theorem overlapHi_le_length (prev : GenomicRegion) :
    ∀ cands : List GenomicRegion, overlapHi prev cands ≤ cands.length := by
  intro cands
  induction cands with
  | nil => exact Nat.le_refl 0
  | cons c t ih =>
    rw [overlapHi]
    by_cases h : prev.end_ ≤ c.begin_
    · rw [if_pos h]; exact Nat.zero_le _
    · rw [if_neg h, List.length_cons]; omega

theorem overlapHi_eq_length (prev : GenomicRegion) :
    ∀ cands : List GenomicRegion, (∀ c ∈ cands, c.begin_ < prev.end_) →
      overlapHi prev cands = cands.length := by
  intro cands
  induction cands with
  | nil => intro _; rfl
  | cons c t ih =>
    intro h
    rw [overlapHi, if_neg (by have := h c (List.mem_cons_self c t); omega),
      ih fun x hx => h x (List.mem_cons_of_mem c hx), List.length_cons]

theorem overlapHi_lt_length (prev : GenomicRegion) :
    ∀ cands : List GenomicRegion, (∃ c ∈ cands, prev.end_ ≤ c.begin_) →
      overlapHi prev cands < cands.length := by
  intro cands
  induction cands with
  | nil => rintro ⟨c, hc, -⟩; cases hc
  | cons c t ih =>
    rintro ⟨x, hx, hxb⟩
    rw [overlapHi]
    by_cases h : prev.end_ ≤ c.begin_
    · rw [if_pos h, List.length_cons]; omega
    · rw [if_neg h, List.length_cons]
      have hxt : x ∈ t := by
        rcases List.mem_cons.mp hx with rfl | hmem
        · omega
        · exact hmem
      have := ih ⟨x, hxt, hxb⟩
      omega

theorem overlapHi_first_beyond (prev : GenomicRegion) :
    ∀ cands : List GenomicRegion, overlapHi prev cands < cands.length →
      prev.end_ ≤ (cands.getD (overlapHi prev cands) default).begin_ := by
  intro cands
  induction cands with
  | nil => intro h; simp at h
  | cons c t ih =>
    intro h
    rw [overlapHi] at h ⊢
    by_cases hc : prev.end_ ≤ c.begin_
    · rw [if_pos hc] at h ⊢
      exact hc
    · rw [if_neg hc] at h ⊢
      rw [List.length_cons] at h
      have := ih (by omega)
      simpa using this

theorem overlapHi_prefix (prev : GenomicRegion) :
    ∀ (cands : List GenomicRegion) (j : ℕ), j < overlapHi prev cands →
      (cands.getD j default).begin_ < prev.end_ := by
  intro cands
  induction cands with
  | nil => intro j h; rw [overlapHi] at h; omega
  | cons c t ih =>
    intro j h
    rw [overlapHi] at h
    by_cases hc : prev.end_ ≤ c.begin_
    · rw [if_pos hc] at h; omega
    · rw [if_neg hc] at h
      cases j with
      | zero => simpa using Nat.lt_of_not_le hc
      | succ j =>
        have := ih j (by omega)
        simpa using this

theorem overlapHi_gt (q : GenomicRegion) :
    ∀ (cands : List GenomicRegion) (k : ℕ), k < cands.length →
      (∀ j, j ≤ k → (cands.getD j default).begin_ < q.end_) →
      k < overlapHi q cands := by
  intro cands
  induction cands with
  | nil => intro k h _; simp at h
  | cons c t ih =>
    intro k hk hall
    rw [overlapHi]
    have h0 := hall 0 (Nat.zero_le k)
    rw [if_neg (by simp at h0; omega)]
    cases k with
    | zero => omega
    | succ k =>
      rw [List.length_cons] at hk
      have := ih k (by omega) fun j hj => by
        have := hall (j + 1) (by omega)
        simpa using this
      omega

/-! Claim theorems for the genome walker. -/

/-- C4: when every candidate begins before the end of the previous region
— that is, no candidate lies beyond it, each one overlapping or preceding
it — the walk returns the zero-length tail of the previous region
(begin and end both at the previous region's end) and nothing else: the
embedded walk yields a genuine region (`some`), not the `none` that marks
an undefined execution, and the model has no other error channel, so the
zero-length tail is the only exhaustion signal. -/
theorem C4_exhaustion_returns_zero_length_tail (w : GenomeWalker) (prev : GenomicRegion)
    (reads cands : List GenomicRegion)
    (hbeyond : ∀ c ∈ cands, c.begin_ < prev.end_) :
    w.walk prev reads cands = some (get_tail prev 0) ∧
    (get_tail prev 0).begin_ = prev.end_ ∧ (get_tail prev 0).end_ = prev.end_ := by
  refine ⟨?_, rfl, rfl⟩
  unfold GenomeWalker.walk
  rw [overlapHi_eq_length prev cands hbeyond, if_pos rfl]

theorem C4_witness :
    (∀ c ∈ ([⟨"c", 1, 2⟩] : List GenomicRegion), c.begin_ < (10 : ℕ)) ∧
    (insertionCfg.walk ⟨"c", 5, 10⟩ [] [⟨"c", 1, 2⟩] = some (get_tail ⟨"c", 5, 10⟩ 0) ∧
      (get_tail (⟨"c", 5, 10⟩ : GenomicRegion) 0).begin_ = (10 : ℕ) ∧
      (get_tail (⟨"c", 5, 10⟩ : GenomicRegion) 0).end_ = (10 : ℕ)) :=
  ⟨by decide,
    C4_exhaustion_returns_zero_length_tail insertionCfg ⟨"c", 5, 10⟩ [] [⟨"c", 1, 2⟩]
      (by decide)⟩

/-- C6: counterexample to the claim's second half.  With
`max_included = 0` and no candidate beyond the previous region `[5,10)`,
the walker does not return the previous region itself: the exhaustion
check at the top of `walk` fires first and returns the zero-length tail
`[10,10)`.  The branch of the `max_included == 0` case that would return
the previous region is unreachable. -/
theorem C6_counterexample_exhausted_tail_not_previous :
    (⟨0, 0, IndicatorLimit.SharedWithPreviousRegion, ExtensionLimit.NoLimit,
        ExpansionLimit.NoExpansion⟩ : GenomeWalker).walk ⟨"c", 5, 10⟩ [] [⟨"c", 1, 2⟩] =
      some ⟨"c", 10, 10⟩ ∧
    (some (⟨"c", 10, 10⟩ : GenomicRegion) ≠ some (⟨"c", 5, 10⟩ : GenomicRegion)) := by
  exact ⟨by decide, by decide⟩

/-- C6 (amended): for a walker with `max_included = 0`, when a candidate
remains beyond the previous region the returned region is the minimal
region spanning the gap between the previous region's end and the next
candidate's start; when no candidate remains beyond, the returned region
is the zero-length tail of the previous region (the exhaustion signal),
not the previous region itself — the `max_included == 0` branch's
previous-region return is dead code. -/
theorem C6_amended_max_included_zero (w : GenomeWalker) (prev : GenomicRegion)
    (reads cands : List GenomicRegion) (hmc : w.max_included_ = 0) :
    ((∃ c ∈ cands, prev.end_ ≤ c.begin_) →
      ∃ c, cands.get? (overlapHi prev cands) = some c ∧ prev.end_ ≤ c.begin_ ∧
        w.walk prev reads cands = some ⟨prev.contig, prev.end_, c.begin_⟩) ∧
    ((∀ c ∈ cands, c.begin_ < prev.end_) →
      w.walk prev reads cands = some (get_tail prev 0)) := by
  constructor
  · intro hex
    have hlt := overlapHi_lt_length prev cands hex
    have hget : cands.get? (overlapHi prev cands) =
        some (cands.getD (overlapHi prev cands) default) :=
      get?_eq_some_getD cands (overlapHi prev cands) hlt
    refine ⟨cands.getD (overlapHi prev cands) default, hget,
      overlapHi_first_beyond prev cands hlt, ?_⟩
    unfold GenomeWalker.walk
    rw [if_neg (by omega), if_pos hmc, hget]
    rfl
  · intro hall
    unfold GenomeWalker.walk
    rw [overlapHi_eq_length prev cands hall, if_pos rfl]

theorem C6_amended_witness :
    (∃ c ∈ ([⟨"c", 20, 21⟩] : List GenomicRegion), (10 : ℕ) ≤ c.begin_) ∧
    (∃ c, ([⟨"c", 20, 21⟩] : List GenomicRegion).get?
          (overlapHi ⟨"c", 5, 10⟩ [⟨"c", 20, 21⟩]) = some c ∧ (10 : ℕ) ≤ c.begin_ ∧
        (⟨0, 0, IndicatorLimit.SharedWithPreviousRegion, ExtensionLimit.NoLimit,
            ExpansionLimit.NoExpansion⟩ : GenomeWalker).walk ⟨"c", 5, 10⟩ [] [⟨"c", 20, 21⟩] =
          some ⟨"c", 10, c.begin_⟩) :=
  ⟨⟨⟨"c", 20, 21⟩, by decide, by decide⟩,
    (C6_amended_max_included_zero _ ⟨"c", 5, 10⟩ [] [⟨"c", 20, 21⟩] rfl).1
      ⟨⟨"c", 20, 21⟩, by decide, by decide⟩⟩

/-- C7: in the `WithinReadLengthOfFirstIncluded` extension branch there is
an input — one read covering the first two of three sorted candidates —
on which `num_included` is capped at `max_candidates_within_read_length +
1 = 2` while `max_candidates_within_read_length = 1`, so the unsigned
subtraction `max_candidates_within_read_length - num_included` underflows
and wraps modulo 2^32 to `4294967295`; the extension loop then runs and
passes this wrapped value, as a summand of the density budget
`num_included + num_excluded_candidates` (itself reduced modulo 2^32, to
0), to `is_optimal_to_extend`. -/
theorem C7_unsigned_underflow_excluded_candidates :
    maxCountSharedFirst [⟨"c", 10, 51⟩] [⟨"c", 10, 11⟩, ⟨"c", 50, 51⟩, ⟨"c", 90, 91⟩] 0 3 = 1 ∧
    extensionCaps
        ⟨0, 2, IndicatorLimit.SharedWithPreviousRegion,
          ExtensionLimit.WithinReadLengthOfFirstIncluded, ExpansionLimit.NoExpansion⟩
        [⟨"c", 10, 51⟩] [⟨"c", 10, 11⟩, ⟨"c", 50, 51⟩, ⟨"c", 90, 91⟩] 0 2 3 =
      (2, 4294967295) ∧
    (1 : ℕ) < 2 ∧
    (2 : ℕ) ^ 31 < 4294967295 ∧
    (1 + 4294967295) % 4294967296 = 0 ∧
    extendLoop [⟨"c", 10, 51⟩] [⟨"c", 10, 11⟩, ⟨"c", 50, 51⟩, ⟨"c", 90, 91⟩] 0 2 3
        4294967295 0 2 =
      (if is_optimal_to_extend [⟨"c", 10, 51⟩]
          [⟨"c", 10, 11⟩, ⟨"c", 50, 51⟩, ⟨"c", 90, 91⟩] 0 1 2 3
          ((0 + 1 + 4294967295) % 4294967296) then
        extendLoop [⟨"c", 10, 51⟩] [⟨"c", 10, 11⟩, ⟨"c", 50, 51⟩, ⟨"c", 90, 91⟩] 0 2 3
          4294967295 1 1
      else 0) ∧
    is_optimal_to_extend [⟨"c", 10, 51⟩] [⟨"c", 10, 11⟩, ⟨"c", 50, 51⟩, ⟨"c", 90, 91⟩]
        0 1 2 3 ((0 + 1 + 4294967295) % 4294967296) = true ∧
    walkIndices
        ⟨0, 2, IndicatorLimit.SharedWithPreviousRegion,
          ExtensionLimit.WithinReadLengthOfFirstIncluded, ExpansionLimit.NoExpansion⟩
        [⟨"c", 10, 51⟩] [⟨"c", 10, 11⟩, ⟨"c", 50, 51⟩, ⟨"c", 90, 91⟩] ⟨"c", 0, 0⟩ =
      some (0, 1) := by
  refine ⟨by decide, by decide, by decide, by decide, by decide, rfl, by decide, by decide⟩

/-- C8: the constructor stores `max_included - 1` as the effective
indicator bound exactly when `0 < max_included ≤ max_indicators`, the
given `max_indicators` otherwise, and stores every other configuration
field unchanged.  The embedded configuration is an immutable structure:
no operation of this development modifies it after construction. -/
theorem C8_constructor_effective_indicator_bound (mi mc : ℕ) (il : IndicatorLimit)
    (el : ExtensionLimit) (xl : ExpansionLimit) :
    (0 < mc → mc ≤ mi → (mkGenomeWalker mi mc il el xl).max_indicators_ = mc - 1) ∧
    (¬(0 < mc ∧ mc ≤ mi) → (mkGenomeWalker mi mc il el xl).max_indicators_ = mi) ∧
    (mkGenomeWalker mi mc il el xl).max_included_ = mc ∧
    (mkGenomeWalker mi mc il el xl).indicator_limit_ = il ∧
    (mkGenomeWalker mi mc il el xl).extension_limit_ = el ∧
    (mkGenomeWalker mi mc il el xl).expansion_limit_ = xl := by
  refine ⟨fun h1 h2 => ?_, fun h => ?_, rfl, rfl, rfl, rfl⟩
  · show (if 0 < mc ∧ mc ≤ mi then mc - 1 else mi) = mc - 1
    rw [if_pos ⟨h1, h2⟩]
  · show (if 0 < mc ∧ mc ≤ mi then mc - 1 else mi) = mi
    rw [if_neg h]

theorem C8_witness :
    (mkGenomeWalker 5 3 IndicatorLimit.NoLimit ExtensionLimit.NoLimit
      ExpansionLimit.NoExpansion).max_indicators_ = 2 ∧
    (mkGenomeWalker 5 0 IndicatorLimit.NoLimit ExtensionLimit.NoLimit
      ExpansionLimit.NoExpansion).max_indicators_ = 5 ∧
    (mkGenomeWalker 2 7 IndicatorLimit.NoLimit ExtensionLimit.NoLimit
      ExpansionLimit.NoExpansion).max_indicators_ = 2 :=
  ⟨(C8_constructor_effective_indicator_bound 5 3 IndicatorLimit.NoLimit
      ExtensionLimit.NoLimit ExpansionLimit.NoExpansion).1 (by decide) (by decide),
    (C8_constructor_effective_indicator_bound 5 0 IndicatorLimit.NoLimit
      ExtensionLimit.NoLimit ExpansionLimit.NoExpansion).2.1 (by decide),
    (C8_constructor_effective_indicator_bound 2 7 IndicatorLimit.NoLimit
      ExtensionLimit.NoLimit ExpansionLimit.NoExpansion).2.1 (by decide)⟩

/-! Lemmas for the iterated walk. -/

theorem walkSeq_none_forever (w : GenomeWalker) (cg : String)
    (reads cands : List GenomicRegion) (h1 : walkSeq w cg reads cands 1 = none) :
    ∀ k, walkSeq w cg reads cands (k + 1) = none := by
  intro k
  induction k with
  | zero => exact h1
  | succ k ih => rw [walkSeq, ih]; rfl

theorem insertion_fixpoint :
    ∀ k, walkSeq insertionCfg "c" insertionReads insertionCands (k + 1) = some ⟨"c", 5, 6⟩ := by
  intro k
  induction k with
  | zero => decide
  | succ k ih => rw [walkSeq, ih]; decide

/-- C5: counterexample.  Four inputs — each a finite sorted candidate
list, a finite read map and a walker configuration — on which the
iterated walk `r1 = start_walk, r_{k+1} = continue_walk(r_k)` never
produces a zero-length region.  (1) `insertionCands` ends with a
zero-length insertion candidate `[10,10)` that always stays beyond the
emitted region: the walk is the nonzero fixed point `[5,6)` forever.
(2) `NoLimit` indicator mode with a positive indicator bound moves the
iterator before the first candidate on the first call (undefined
behaviour in the source, `none` in the model) and the sequence never
recovers.  (3) An empty read map with the `UpToExcluded` expansion
dereferences a nonexistent leftmost overlapping read.  (4) Three
mutually overlapping sorted nonempty candidates make the absorption
`advance(included_itr, count_overlapped(...) - 1)` overshoot past the end
of the candidate list. -/
theorem C5_counterexample_nontermination :
    neverExhausts insertionCfg "c" insertionReads insertionCands ∧
    neverExhausts noLimitIndicatorCfg "c" singleRead singleCandidate ∧
    neverExhausts noReadsCfg "c" [] singleCandidate ∧
    neverExhausts overlapCfg "c" overlapReads overlapCands := by
  refine ⟨?_, ?_, ?_, ?_⟩
  · intro k r hk h
    obtain ⟨k', rfl⟩ : ∃ k', k = k' + 1 := ⟨k - 1, by omega⟩
    rw [insertion_fixpoint k'] at h
    obtain rfl := Option.some.inj h
    decide
  · intro k r hk h
    obtain ⟨k', rfl⟩ : ∃ k', k = k' + 1 := ⟨k - 1, by omega⟩
    rw [walkSeq_none_forever _ _ _ _ (by decide) k'] at h
    cases h
  · intro k r hk h
    obtain ⟨k', rfl⟩ : ∃ k', k = k' + 1 := ⟨k - 1, by omega⟩
    rw [walkSeq_none_forever _ _ _ _ (by decide) k'] at h
    cases h
  · intro k r hk h
    obtain ⟨k', rfl⟩ : ∃ k', k = k' + 1 := ⟨k - 1, by omega⟩
    rw [walkSeq_none_forever _ _ _ _ (by decide) k'] at h
    cases h

/-!
Lemmas towards the amended termination theorem: under the walker's
documented preconditions (sorted, pairwise non-overlapping, nonempty
candidate regions, each covered by a read, and a safe indicator mode) the
iterated walk reaches the zero-length terminal region.
-/

theorem getD_eq_get {α : Type} [Inhabited α] (l : List α) (k : ℕ) (h : k < l.length) :
    l.getD k default = l.get ⟨k, h⟩ := by
  have h1 := get?_eq_some_getD l k h
  rw [List.get?_eq_get h] at h1
  exact (Option.some.inj h1).symm

theorem getD_mem {α : Type} [Inhabited α] (l : List α) (k : ℕ) (h : k < l.length) :
    l.getD k default ∈ l :=
  List.get?_mem (get?_eq_some_getD l k h)

theorem overlapsB_eq_true_iff (a b : GenomicRegion) :
    overlapsB a b = true ↔ a.begin_ < b.end_ ∧ b.begin_ < a.end_ := by
  simp [overlapsB]

theorem sep_getD (cands : List GenomicRegion)
    (hsep : cands.Pairwise fun a b => a.end_ ≤ b.begin_)
    (i j : ℕ) (hij : i < j) (hj : j < cands.length) :
    (cands.getD i default).end_ ≤ (cands.getD j default).begin_ := by
  have hi : i < cands.length := lt_trans hij hj
  rw [getD_eq_get cands i hi, getD_eq_get cands j hj]
  exact List.pairwise_iff_get.mp hsep ⟨i, hi⟩ ⟨j, hj⟩ hij

theorem begin_mono_getD (cands : List GenomicRegion)
    (hsep : cands.Pairwise fun a b => a.end_ ≤ b.begin_)
    (hne : ∀ c ∈ cands, c.begin_ < c.end_)
    (i j : ℕ) (hij : i ≤ j) (hj : j < cands.length) :
    (cands.getD i default).begin_ ≤ (cands.getD j default).begin_ := by
  rcases Nat.eq_or_lt_of_le hij with rfl | hlt
  · exact Nat.le_refl _
  · have h1 := sep_getD cands hsep i j hlt hj
    have h2 := hne _ (getD_mem cands i (lt_trans hlt hj))
    omega

theorem countP_overlap_self :
    ∀ (l : List GenomicRegion), l.Pairwise (fun a b => a.end_ ≤ b.begin_) →
      (∀ c ∈ l, c.begin_ < c.end_) → ∀ j, j < l.length →
      l.countP (fun c => overlapsB c (l.getD j default)) = 1 := by
  intro l
  induction l with
  | nil => intro _ _ j hj; simp at hj
  | cons a t ih =>
    intro hsep hne j hj
    rw [List.pairwise_cons] at hsep
    obtain ⟨ha, hsept⟩ := hsep
    rw [List.countP_cons]
    cases j with
    | zero =>
      simp only [List.getD_cons_zero]
      have h1 : overlapsB a a = true := by
        rw [overlapsB_eq_true_iff]
        have := hne a (List.mem_cons_self a t)
        omega
      have h0 : t.countP (fun c => overlapsB c a) = 0 := by
        rw [List.countP_eq_zero]
        intro c hc hov
        rw [overlapsB_eq_true_iff] at hov
        have := ha c hc
        omega
      rw [h0, if_pos h1]
    | succ k =>
      simp only [List.getD_cons_succ]
      rw [List.length_cons] at hj
      have hkt : k < t.length := by omega
      have hpa : ¬(overlapsB a (t.getD k default) = true) := by
        intro hov
        rw [overlapsB_eq_true_iff] at hov
        have := ha _ (getD_mem t k hkt)
        omega
      rw [ih hsept (fun c hc => hne c (List.mem_cons_of_mem a hc)) k hkt, if_neg hpa]

theorem is_optimal_ne_last (reads cands : List GenomicRegion)
    (fi p fe lastIdx b : ℕ)
    (h : is_optimal_to_extend reads cands fi p fe lastIdx b = true) : p ≠ lastIdx := by
  intro hp
  rw [is_optimal_to_extend, if_pos hp] at h
  cases h

theorem extendLoop_ge (reads cands : List GenomicRegion) (fi fe lastIdx numExcl : ℕ) :
    ∀ ni included, included ≤ extendLoop reads cands fi fe lastIdx numExcl included ni := by
  intro ni
  induction ni using Nat.strong_induction_on with
  | _ ni ih =>
    intro included
    match ni with
    | 0 => exact Nat.le_refl _
    | 1 => exact Nat.le_refl _
    | (ni + 2) =>
      rw [extendLoop]
      by_cases hopt : is_optimal_to_extend reads cands fi (included + 1) fe lastIdx
          ((ni + 1 + numExcl) % 4294967296) = true
      · rw [if_pos hopt]
        have := ih (ni + 1) (by omega) (included + 1)
        omega
      · rw [if_neg hopt]

theorem extendLoop_lt (reads cands : List GenomicRegion) (fi fe lastIdx numExcl : ℕ) :
    ∀ ni included, included < lastIdx →
      extendLoop reads cands fi fe lastIdx numExcl included ni < lastIdx := by
  intro ni
  induction ni using Nat.strong_induction_on with
  | _ ni ih =>
    intro included hinc
    match ni with
    | 0 => exact hinc
    | 1 => exact hinc
    | (ni + 2) =>
      rw [extendLoop]
      by_cases hopt : is_optimal_to_extend reads cands fi (included + 1) fe lastIdx
          ((ni + 1 + numExcl) % 4294967296) = true
      · rw [if_pos hopt]
        have hne := is_optimal_ne_last reads cands fi (included + 1) fe lastIdx _ hopt
        exact ih (ni + 1) (by omega) (included + 1) (by omega)
      · rw [if_neg hopt]; exact hinc

theorem numIndicators_le (w : GenomeWalker) (reads cands : List GenomicRegion)
    (lo inc0 : ℕ)
    (hind : w.indicator_limit_ = IndicatorLimit.SharedWithPreviousRegion ∨
      w.max_indicators_ = 0) :
    numIndicators w reads cands lo inc0 ≤ inc0 := by
  unfold numIndicators
  cases hil : w.indicator_limit_ with
  | SharedWithPreviousRegion =>
    exact le_trans (Nat.min_le_left _ _) (Nat.sub_le _ _)
  | NoLimit =>
    rcases hind with h | h
    · rw [hil] at h; cases h
    · rw [h]; exact Nat.zero_le _

theorem getLast?_spec {α : Type} :
    ∀ (l : List α), l ≠ [] → ∃ a, l.getLast? = some a ∧ a ∈ l := by
  intro l
  induction l with
  | nil => intro h; exact absurd rfl h
  | cons x t ih =>
    intro _
    cases t with
    | nil => exact ⟨x, rfl, List.mem_cons_self x []⟩
    | cons y s =>
      obtain ⟨a, ha, hmem⟩ := ih (by simp)
      exact ⟨a, by rw [List.getLast?_cons_cons, ha], List.mem_cons_of_mem x hmem⟩

theorem leftmostOverlapped_spec (reads : List GenomicRegion) (m : GenomicRegion)
    (h : ∃ r ∈ reads, overlapsB r m = true) :
    ∃ L, leftmostOverlapped reads m = some L ∧ overlapsB L m = true := by
  obtain ⟨r, hr, ho⟩ := h
  have hmem : r ∈ reads.filter (fun x => overlapsB x m) := List.mem_filter.mpr ⟨hr, ho⟩
  cases hf : reads.filter (fun x => overlapsB x m) with
  | nil => rw [hf] at hmem; cases hmem
  | cons L rest =>
    refine ⟨L, by rw [leftmostOverlapped, hf]; rfl, ?_⟩
    have hLmem : L ∈ reads.filter (fun x => overlapsB x m) := by
      rw [hf]; exact List.mem_cons_self L rest
    exact (List.mem_filter.mp hLmem).2

theorem rightmostOverlapped_spec (reads : List GenomicRegion) (m : GenomicRegion)
    (h : ∃ r ∈ reads, overlapsB r m = true) :
    ∃ R, rightmostOverlapped reads m = some R ∧ overlapsB R m = true := by
  obtain ⟨r, hr, ho⟩ := h
  have hmem : r ∈ reads.filter (fun x => overlapsB x m) := List.mem_filter.mpr ⟨hr, ho⟩
  obtain ⟨R, hR, hRmem⟩ := getLast?_spec _ (List.ne_nil_of_mem hmem)
  exact ⟨R, by rw [rightmostOverlapped, hR], (List.mem_filter.mp hRmem).2⟩

theorem narrowLastAux_le (cands : List GenomicRegion) (rhs : GenomicRegion) :
    ∀ fuel lv, narrowLastAux cands rhs fuel lv ≤ lv := by
  intro fuel
  induction fuel with
  | zero => intro lv; exact Nat.le_refl _
  | succ fuel ih =>
    intro lv
    rw [narrowLastAux]
    by_cases h : rhs.end_ < (cands.getD (lv - 1) default).end_
    · rw [if_pos h]
      exact le_trans (ih (lv - 1)) (Nat.sub_le _ _)
    · rw [if_neg h]

theorem countRange_pos_lt (cands : List GenomicRegion) (fp fi : ℕ) (r : GenomicRegion)
    (h : 0 < countOverlappedRange cands fp fi r) : fp < fi := by
  by_contra hc
  push_neg at hc
  rw [countOverlappedRange] at h
  have h0 : fi - fp = 0 := by omega
  rw [h0] at h
  simp at h

theorem expandAround_spec (reads cands : List GenomicRegion)
    (hsep : cands.Pairwise fun a b => a.end_ ≤ b.begin_)
    (hne : ∀ c ∈ cands, c.begin_ < c.end_)
    (hcov : ∀ c ∈ cands, ∃ r ∈ reads, overlapsB r c = true)
    (fp fi fe lastIdx : ℕ) (hfi : fi < cands.length) (hfe : fe - 1 < cands.length)
    (hfe1 : 1 ≤ fe) (hlast : lastIdx ≤ cands.length) :
    ∃ rg, expandAroundIncluded reads cands fp fi fe lastIdx = some rg ∧
      (cands.getD (fe - 1) default).begin_ < rg.end_ := by
  have hcfi := get?_eq_some_getD cands fi hfi
  have hcli := get?_eq_some_getD cands (fe - 1) hfe
  obtain ⟨L0, hL0, hL0ov⟩ :=
    leftmostOverlapped_spec reads _ (hcov _ (getD_mem cands fi hfi))
  obtain ⟨R0, hR0, hR0ov⟩ :=
    rightmostOverlapped_spec reads _ (hcov _ (getD_mem cands (fe - 1) hfe))
  rw [expandAroundIncluded, hcfi, hcli]
  simp only [Option.bind_eq_bind, Option.some_bind]
  rw [hL0, hR0]
  simp only [Option.some_bind]
  have hbne := hne _ (getD_mem cands (fe - 1) hfe)
  rw [overlapsB_eq_true_iff] at hR0ov
  by_cases hcnt : 0 < countOverlappedRange cands fp fi L0
  · rw [if_pos hcnt]
    rw [get?_eq_some_getD cands (fi - 1)
      (by have := countRange_pos_lt cands fp fi L0 hcnt; omega)]
    simp only [Option.pure_def, Option.some_bind]
    by_cases hfel : fe < lastIdx
    · rw [if_pos hfel, get?_eq_some_getD cands fe (by omega)]
      simp only [Option.pure_def, Option.some_bind]
      refine ⟨_, rfl, ?_⟩
      simp only [get_closed]
      by_cases hcont : containsB R0 (cands.getD fe default) = true
      · rw [if_pos hcont]
        have hsep1 := sep_getD cands hsep (fe - 1) fe (by omega) (by omega)
        simp only [shiftRegion, innerDistance]
        omega
      · rw [if_neg hcont]
        omega
    · rw [if_neg hfel]
      refine ⟨_, rfl, ?_⟩
      simp only [get_closed]
      omega
  · rw [if_neg hcnt]
    simp only [Option.pure_def, Option.some_bind]
    by_cases hfel : fe < lastIdx
    · rw [if_pos hfel, get?_eq_some_getD cands fe (by omega)]
      simp only [Option.pure_def, Option.some_bind]
      refine ⟨_, rfl, ?_⟩
      simp only [get_closed]
      by_cases hcont : containsB R0 (cands.getD fe default) = true
      · rw [if_pos hcont]
        have hsep1 := sep_getD cands hsep (fe - 1) fe (by omega) (by omega)
        simp only [shiftRegion, innerDistance]
        omega
      · rw [if_neg hcont]
        omega
    · rw [if_neg hfel]
      refine ⟨_, rfl, ?_⟩
      simp only [get_closed]
      omega

theorem walkLoopResult_ge (w : GenomeWalker) (reads cands : List GenomicRegion)
    (prev : GenomicRegion) :
    overlapHi prev cands ≤ walkLoopResult w reads cands prev :=
  extendLoop_ge reads cands _ _ _ _ _ _

theorem walkLoopResult_lt (w : GenomeWalker) (reads cands : List GenomicRegion)
    (prev : GenomicRegion) (h : overlapHi prev cands < cands.length) :
    walkLoopResult w reads cands prev < cands.length :=
  extendLoop_lt reads cands _ _ _ _ _ _ h

theorem walkExpand_spec (w : GenomeWalker) (reads cands : List GenomicRegion)
    (hsep : cands.Pairwise fun a b => a.end_ ≤ b.begin_)
    (hne : ∀ c ∈ cands, c.begin_ < c.end_)
    (hcov : ∀ c ∈ cands, ∃ r ∈ reads, overlapsB r c = true)
    (lo fi inc : ℕ) (hfi : fi ≤ inc) (hinc : inc < cands.length) :
    ∃ rg, walkExpand w reads cands lo fi inc = some rg ∧
      (cands.getD inc default).begin_ < rg.end_ := by
  have hfin : fi < cands.length := by omega
  rw [walkExpand]
  cases hxl : w.expansion_limit_ with
  | UpToExcluded =>
    have h := expandAround_spec reads cands hsep hne hcov lo fi (inc + 1) cands.length
      hfin (by omega) (by omega) (Nat.le_refl _)
    simpa using h
  | WithinReadLength =>
    rw [get?_eq_some_getD cands fi hfin]
    simp only [Option.bind_eq_bind, Option.some_bind]
    rw [get?_eq_some_getD cands inc hinc]
    simp only [Option.some_bind]
    obtain ⟨L, hL, hLov⟩ :=
      leftmostOverlapped_spec reads _ (hcov _ (getD_mem cands fi hfin))
    obtain ⟨R, hR, hRov⟩ :=
      rightmostOverlapped_spec reads _ (hcov _ (getD_mem cands inc hinc))
    rw [hL]
    simp only [Option.some_bind]
    rw [hR]
    simp only [Option.pure_def, Option.some_bind]
    refine ⟨_, rfl, ?_⟩
    simp only [get_encompassing]
    rw [overlapsB_eq_true_iff] at hRov
    have := le_max_right L.end_ R.end_
    omega
  | UpToExcludedWithinReadLength =>
    rw [get?_eq_some_getD cands fi hfin]
    simp only [Option.bind_eq_bind, Option.some_bind]
    rw [get?_eq_some_getD cands inc hinc]
    simp only [Option.some_bind]
    obtain ⟨L, hL, hLov⟩ :=
      leftmostOverlapped_spec reads _ (hcov _ (getD_mem cands fi hfin))
    obtain ⟨R, hR, hRov⟩ :=
      rightmostOverlapped_spec reads _ (hcov _ (getD_mem cands inc hinc))
    rw [hL]
    simp only [Option.some_bind]
    rw [hR]
    simp only [Option.some_bind]
    have h := expandAround_spec reads cands hsep hne hcov
      (narrowPrev cands L fi lo) fi (inc + 1)
      (narrowLast cands R (inc + 1) cands.length) hfin (by omega) (by omega)
      (le_trans (narrowLastAux_le cands R _ _) (Nat.le_refl _))
    simpa using h
  | NoExpansion =>
    rw [get?_eq_some_getD cands fi hfin]
    simp only [Option.bind_eq_bind, Option.some_bind]
    rw [get?_eq_some_getD cands inc hinc]
    simp only [Option.pure_def, Option.some_bind]
    refine ⟨_, rfl, ?_⟩
    simp only [get_encompassing]
    have h1 := hne _ (getD_mem cands inc hinc)
    have := le_max_right (cands.getD fi default).end_ (cands.getD inc default).end_
    omega

theorem walkIndices_spec (w : GenomeWalker) (reads cands : List GenomicRegion)
    (prev : GenomicRegion)
    (hsep : cands.Pairwise fun a b => a.end_ ≤ b.begin_)
    (hne : ∀ c ∈ cands, c.begin_ < c.end_)
    (hind : w.indicator_limit_ = IndicatorLimit.SharedWithPreviousRegion ∨
      w.max_indicators_ = 0)
    (hlt : overlapHi prev cands < cands.length) :
    ∃ fi, walkIndices w reads cands prev = some (fi, walkLoopResult w reads cands prev) ∧
      fi ≤ walkLoopResult w reads cands prev := by
  have hnile := numIndicators_le w reads cands (overlapLo prev cands)
    (overlapHi prev cands) hind
  have hwge := walkLoopResult_ge w reads cands prev
  have hwlt := walkLoopResult_lt w reads cands prev hlt
  rw [walkIndices]
  rw [if_neg (by omega)]
  rw [get?_eq_some_getD cands (walkLoopResult w reads cands prev) hwlt]
  simp only [Option.bind_eq_bind, Option.some_bind]
  have hc1 : countOverlapped cands
      (cands.getD (walkLoopResult w reads cands prev) default) = 1 := by
    rw [countOverlapped]
    exact countP_overlap_self cands hsep hne (walkLoopResult w reads cands prev) hwlt
  rw [hc1]
  rw [if_neg (by omega)]
  have htn : ((walkLoopResult w reads cands prev : ℤ) + ((1 : ℕ) : ℤ) - 1).toNat =
      walkLoopResult w reads cands prev := by omega
  rw [htn, if_neg (by omega)]
  exact ⟨_, rfl, by omega⟩

theorem walk_exhausted (w : GenomeWalker) (prev : GenomicRegion)
    (reads cands : List GenomicRegion) (h : overlapHi prev cands = cands.length) :
    w.walk prev reads cands = some (get_tail prev 0) := by
  rw [GenomeWalker.walk, if_pos h]

theorem walk_progress (w : GenomeWalker) (prev : GenomicRegion)
    (reads cands : List GenomicRegion)
    (hsep : cands.Pairwise fun a b => a.end_ ≤ b.begin_)
    (hne : ∀ c ∈ cands, c.begin_ < c.end_)
    (hcov : ∀ c ∈ cands, ∃ r ∈ reads, overlapsB r c = true)
    (hind : w.indicator_limit_ = IndicatorLimit.SharedWithPreviousRegion ∨
      w.max_indicators_ = 0)
    (hlt : overlapHi prev cands < cands.length) (hmc : w.max_included_ ≠ 0) :
    ∃ rg, w.walk prev reads cands = some rg ∧
      (cands.getD (overlapHi prev cands) default).begin_ < rg.end_ := by
  obtain ⟨fi, hwi, hfile⟩ := walkIndices_spec w reads cands prev hsep hne hind hlt
  have hwlt := walkLoopResult_lt w reads cands prev hlt
  have hwge := walkLoopResult_ge w reads cands prev
  obtain ⟨rg, hxp, hend⟩ := walkExpand_spec w reads cands hsep hne hcov
    (overlapLo prev cands) fi (walkLoopResult w reads cands prev) hfile hwlt
  refine ⟨rg, ?_, ?_⟩
  · rw [GenomeWalker.walk, if_neg (by omega), if_neg hmc, hwi]
    simp only [Option.bind_eq_bind, Option.some_bind]
    exact hxp
  · have hmono := begin_mono_getD cands hsep hne (overlapHi prev cands)
      (walkLoopResult w reads cands prev) hwge hwlt
    omega

theorem overlapHi_after (cands : List GenomicRegion)
    (hsep : cands.Pairwise fun a b => a.end_ ≤ b.begin_)
    (hne : ∀ c ∈ cands, c.begin_ < c.end_)
    (inc0 : ℕ) (hlt : inc0 < cands.length) (rg : GenomicRegion)
    (hend : (cands.getD inc0 default).begin_ < rg.end_) :
    inc0 < overlapHi rg cands := by
  apply overlapHi_gt rg cands inc0 hlt
  intro j hj
  have := begin_mono_getD cands hsep hne j inc0 hj hlt
  omega

theorem walkIter_one (w : GenomeWalker) (reads cands : List GenomicRegion)
    (prev : GenomicRegion) :
    walkIter w reads cands prev 1 = w.walk prev reads cands := by
  show Option.bind (some prev) (fun r => w.walk r reads cands) = _
  rw [Option.some_bind]

theorem walkIter_shift (w : GenomeWalker) (reads cands : List GenomicRegion)
    (prev r : GenomicRegion) (h : w.walk prev reads cands = some r) :
    ∀ j, walkIter w reads cands prev (j + 1) = walkIter w reads cands r j := by
  intro j
  induction j with
  | zero =>
    rw [walkIter_one, h]
    rfl
  | succ j ih =>
    show (walkIter w reads cands prev (j + 1)).bind _ =
      (walkIter w reads cands r j).bind _
    rw [ih]

theorem walkSeq_eq_walkIter (w : GenomeWalker) (cg : String)
    (reads cands : List GenomicRegion) :
    ∀ k, walkSeq w cg reads cands k = walkIter w reads cands ⟨cg, 0, 0⟩ k := by
  intro k
  induction k with
  | zero => rfl
  | succ k ih => rw [walkSeq, walkIter, ih]

theorem walk_mi0_eq (w : GenomeWalker) (prev : GenomicRegion)
    (reads cands : List GenomicRegion) (hmc : w.max_included_ = 0)
    (hlt : overlapHi prev cands < cands.length) :
    w.walk prev reads cands =
      some (get_intervening prev (cands.getD (overlapHi prev cands) default)) := by
  rw [GenomeWalker.walk, if_neg (by omega), if_pos hmc,
    get?_eq_some_getD cands _ hlt]
  rfl

theorem overlapHi_intervening (cands : List GenomicRegion) (prev : GenomicRegion)
    (hlt : overlapHi prev cands < cands.length) :
    overlapHi (get_intervening prev (cands.getD (overlapHi prev cands) default)) cands =
      overlapHi prev cands := by
  have hfirst := overlapHi_first_beyond prev cands hlt
  apply Nat.le_antisymm
  · by_contra hgt
    push_neg at hgt
    have hpre := overlapHi_prefix
      (get_intervening prev (cands.getD (overlapHi prev cands) default)) cands
      (overlapHi prev cands) hgt
    simp only [get_intervening] at hpre
    omega
  · rcases Nat.eq_zero_or_pos (overlapHi prev cands) with h0 | hpos
    · omega
    · have hgt := overlapHi_gt
        (get_intervening prev (cands.getD (overlapHi prev cands) default)) cands
        (overlapHi prev cands - 1) (by omega) ?_
      · omega
      · intro j hj
        have hjp := overlapHi_prefix prev cands j (by omega)
        simp only [get_intervening]
        omega

theorem walk_reaches_aux (w : GenomeWalker) (reads cands : List GenomicRegion)
    (hsep : cands.Pairwise fun a b => a.end_ ≤ b.begin_)
    (hne : ∀ c ∈ cands, c.begin_ < c.end_)
    (hcov : ∀ c ∈ cands, ∃ r ∈ reads, overlapsB r c = true)
    (hind : w.indicator_limit_ = IndicatorLimit.SharedWithPreviousRegion ∨
      w.max_indicators_ = 0) :
    ∀ (m : ℕ) (prev : GenomicRegion), cands.length - overlapHi prev cands ≤ m →
      ∃ j r, 1 ≤ j ∧ j ≤ m + 1 ∧ walkIter w reads cands prev j = some r ∧
        r.begin_ = r.end_ := by
  intro m
  induction m with
  | zero =>
    intro prev hm
    have hle := overlapHi_le_length prev cands
    have heq : overlapHi prev cands = cands.length := by omega
    exact ⟨1, get_tail prev 0, Nat.le_refl 1, Nat.le_refl 1,
      by rw [walkIter_one, walk_exhausted w prev reads cands heq], by simp [get_tail]⟩
  | succ m ih =>
    intro prev hm
    by_cases hendc : overlapHi prev cands = cands.length
    · exact ⟨1, get_tail prev 0, Nat.le_refl 1, by omega,
        by rw [walkIter_one, walk_exhausted w prev reads cands hendc], by simp [get_tail]⟩
    · have hlt : overlapHi prev cands < cands.length :=
        lt_of_le_of_ne (overlapHi_le_length prev cands) hendc
      by_cases hmc : w.max_included_ = 0
      · have h1 := walk_mi0_eq w prev reads cands hmc hlt
        by_cases hz : prev.end_ = (cands.getD (overlapHi prev cands) default).begin_
        · refine ⟨1, get_intervening prev (cands.getD (overlapHi prev cands) default),
            Nat.le_refl 1, by omega, by rw [walkIter_one, h1], ?_⟩
          simp only [get_intervening]
          omega
        · have hsame := overlapHi_intervening cands prev hlt
          have hlt1 : overlapHi
              (get_intervening prev (cands.getD (overlapHi prev cands) default)) cands <
              cands.length := by rw [hsame]; exact hlt
          have h2 := walk_mi0_eq w
            (get_intervening prev (cands.getD (overlapHi prev cands) default))
            reads cands hmc hlt1
          rw [hsame] at h2
          refine ⟨2, get_intervening
              (get_intervening prev (cands.getD (overlapHi prev cands) default))
              (cands.getD (overlapHi prev cands) default), by omega, by omega, ?_, ?_⟩
          · rw [walkIter_shift w reads cands prev _ h1 1, walkIter_one, h2]
          · simp only [get_intervening]
      · obtain ⟨rg, hw, hend'⟩ := walk_progress w prev reads cands hsep hne hcov hind hlt hmc
        have hstep := overlapHi_after cands hsep hne (overlapHi prev cands) hlt rg hend'
        obtain ⟨j, r, hj1, hjm, hit, hzr⟩ := ih rg
          (by have := overlapHi_le_length rg cands; omega)
        exact ⟨j + 1, r, by omega, by omega,
          by rw [walkIter_shift w reads cands prev rg hw j]; exact hit, hzr⟩

/-- C5 (amended): on the walker's documented preconditions — sorted,
pairwise non-overlapping candidate regions (the source's
"non-overlapping-duplicate" pre-validated input, §4.1), each candidate
region nonempty (zero-length insertion candidates excluded, as the
counterexample forces), each candidate overlapped by at least one read
(the populated-reads precondition, §7), and an indicator mode that does
not step before the first candidate (`SharedWithPreviousRegion`, or a
zero indicator bound) — the iterated walk
`r1 = start_walk, r_{k+1} = continue_walk(r_k)` reaches a zero-length
region within `len(candidates) + 1` calls. -/
theorem C5_amended_termination (w : GenomeWalker) (contig : String)
    (reads cands : List GenomicRegion)
    (hsep : cands.Pairwise fun a b => a.end_ ≤ b.begin_)
    (hne : ∀ c ∈ cands, c.begin_ < c.end_)
    (hcov : ∀ c ∈ cands, ∃ r ∈ reads, overlapsB r c = true)
    (hind : w.indicator_limit_ = IndicatorLimit.SharedWithPreviousRegion ∨
      w.max_indicators_ = 0) :
    reachesExhaustion w contig reads cands (cands.length + 1) := by
  obtain ⟨j, r, hj1, hjm, hit, hz⟩ := walk_reaches_aux w reads cands hsep hne hcov hind
    cands.length ⟨contig, 0, 0⟩ (Nat.sub_le _ _)
  exact ⟨j, r, hj1, hjm, by rw [walkSeq_eq_walkIter]; exact hit, hz⟩

theorem C5_amended_termination_witness :
    ([⟨"c", 10, 11⟩] : List GenomicRegion).Pairwise (fun a b => a.end_ ≤ b.begin_) ∧
    (∀ c ∈ ([⟨"c", 10, 11⟩] : List GenomicRegion), c.begin_ < c.end_) ∧
    (∀ c ∈ ([⟨"c", 10, 11⟩] : List GenomicRegion),
      ∃ r ∈ ([⟨"c", 9, 12⟩] : List GenomicRegion), overlapsB r c = true) ∧
    reachesExhaustion noReadsCfg "c" [⟨"c", 9, 12⟩] [⟨"c", 10, 11⟩] 2 :=
  ⟨by decide, by decide, by decide,
    C5_amended_termination noReadsCfg "c" [⟨"c", 9, 12⟩] [⟨"c", 10, 11⟩]
      (by decide) (by decide) (by decide) (Or.inl rfl)⟩

end Octopus
